import Mathlib

/-!
Shallow embedding of the Huffman codec in `src/app.py` (the algorithmic core:
`build_frequency_table`, `build_huffman_tree`, `build_codes`,
`huffman_compress`, `huffman_decompress`).

Conventions of the embedding:
* a Python `str` is modelled as `List Char`; bit-strings are lists of the
  characters '0' and '1', exactly the values the source manipulates;
* a Python `dict` is modelled as an insertion-ordered association list;
  `dictUpsert` is `d[k] = v` (update in place or append) and `dictGet` is
  `d.get(k)` / `k in d`;
* `bytes` is modelled as `List Nat` with entries below 256;
* Python's `heapq` module (heapify / heappush / heappop with `_siftup` and
  `_siftdown`) is translated literally; the while loops become fuel-based
  recursion where the fuel provably dominates the number of iterations, and
  fuel exhaustion repeats the loop-exit action so the translation agrees with
  the source on every input;
* exceptions become `Except HuffError`.
-/

namespace HuffApp

/-- Error taxonomy of the source: `ValueError("Empty input cannot be compressed.")`,
`KeyError` from `codes[ch]`, `ValueError("Corrupted compressed file.")`,
`ValueError` raised by `int("", 2)`, and
`ValueError("Incomplete prefix code in compressed file.")`. -/
inductive HuffError where
  | emptyInput
  | keyError
  | corruptArtifact
  | invalidLiteral
  | incompleteCode
deriving DecidableEq, Repr

/-- The `Node` class of `src/app.py`: a leaf carries a character (`char is not None`)
and a frequency; a merged node carries `char = None`, the summed frequency and the
two children.  The inductive covers exactly the node shapes the program builds. -/
inductive Node where
  | leaf (c : Char) (freq : Nat)
  | internal (freq : Nat) (left : Node) (right : Node)
deriving DecidableEq, Repr

/-- `node.freq`, used by `Node.__lt__` (comparison is by frequency only). -/
def Node.freq : Node → Nat
  | .leaf _ f => f
  | .internal f _ _ => f

/-- Insertion-ordered dictionary write `d[k] = v`: updates the first entry with
key `k` in place, otherwise appends at the end — Python `dict` semantics. -/
def dictUpsert {α β : Type} [DecidableEq α] : List (α × β) → α → β → List (α × β)
  | [], k, v => [(k, v)]
  | (a, b) :: t, k, v => if a = k then (a, v) :: t else (a, b) :: dictUpsert t k v

/-- Dictionary read `d.get(k)` (and the `k in d` test via `isSome`). -/
def dictGet {α β : Type} [DecidableEq α] : List (α × β) → α → Option β
  | [], _ => none
  | (a, b) :: t, k => if a = k then some b else dictGet t k

/-- `build_frequency_table` (src/app.py:27-31): `freq[ch] = freq.get(ch, 0) + 1`
folded over the input characters. -/
def build_frequency_table (data : List Char) : List (Char × Nat) :=
  data.foldl (fun freq ch => dictUpsert freq ch ((dictGet freq ch).getD 0 + 1)) []

/-- The loop body of `heapq._siftdown` (CPython `Lib/heapq.py`), specialised to
`Node` whose `<` compares `freq`.  `fuel` dominates the iteration count
(`pos` strictly decreases while `startpos < pos`); on exhaustion it performs the
loop-exit write, so with the fuel supplied by `siftdown` it equals the source. -/
def siftdownF : Nat → List Node → Nat → Nat → Node → List Node
  | 0, heap, _, pos, item => heap.set pos item
  | fuel + 1, heap, startpos, pos, item =>
    if startpos < pos then
      let parentpos := (pos - 1) / 2
      match heap[parentpos]? with
      | some parent =>
        if item.freq < parent.freq then
          siftdownF fuel (heap.set pos parent) startpos parentpos item
        else heap.set pos item
      | none => heap.set pos item
    else heap.set pos item

/-- `heapq._siftdown(heap, startpos, pos)`. -/
def siftdown (heap : List Node) (startpos pos : Nat) : List Node :=
  match heap[pos]? with
  | some item => siftdownF (pos + 1) heap startpos pos item
  | none => heap

/-- The descending loop of `heapq._siftup`: follow the smaller child down to a
leaf, moving children up; returns the final list and position.  `fuel` dominates
the iteration count (`pos` strictly increases and stays below the length). -/
def siftupF : Nat → List Node → Nat → List Node × Nat
  | 0, heap, pos => (heap, pos)
  | fuel + 1, heap, pos =>
    let endpos := heap.length
    let childpos := 2 * pos + 1
    if childpos < endpos then
      let rightpos := childpos + 1
      let cp :=
        match heap[childpos]?, heap[rightpos]? with
        | some cnode, some rnode =>
          if ¬ cnode.freq < rnode.freq then rightpos else childpos
        | _, _ => childpos
      match heap[cp]? with
      | some cnode => siftupF fuel (heap.set pos cnode) cp
      | none => (heap, pos)
    else (heap, pos)

/-- `heapq._siftup(heap, pos)`: run the descending loop, write the saved item at
the final position, then `_siftdown(heap, pos, finalpos)`. -/
def siftup (heap : List Node) (pos : Nat) : List Node :=
  match heap[pos]? with
  | some item =>
    let hp := siftupF heap.length heap pos
    siftdown (hp.1.set hp.2 item) pos hp.2
  | none => heap

/-- `heapq.heappush(heap, item)`: append then `_siftdown(heap, 0, len(heap)-1)`. -/
def heappush (heap : List Node) (item : Node) : List Node :=
  siftdown (heap ++ [item]) 0 heap.length

/-- `heapq.heappop(heap)`: pop the last element; if the rest is non-empty,
return the old root after placing the popped element at index 0 and sifting up.
`none` models the `IndexError` on an empty heap (never reached by the source). -/
def heappop (heap : List Node) : Option (Node × List Node) :=
  match heap.getLast? with
  | none => none
  | some lastelt =>
    match heap.dropLast.head? with
    | none => some (lastelt, [])
    | some returnitem => some (returnitem, siftup (heap.dropLast.set 0 lastelt) 0)

/-- `heapq.heapify(x)`: `for i in reversed(range(n//2)): _siftup(x, i)`. -/
def heapify (l : List Node) : List Node :=
  (List.range (l.length / 2)).reverse.foldl (fun h i => siftup h i) l

/-- The `while len(heap) > 1` merge loop of `build_huffman_tree`
(src/app.py:38-44).  Each iteration shortens the heap by one, so fuel equal to
the initial length dominates the iteration count; on exhaustion the loop-exit
value (the heap itself) is returned, and the unreachable empty-pop branches
return the current heap unchanged. -/
def buildTreeF : Nat → List Node → List Node
  | 0, heap => heap
  | fuel + 1, heap =>
    if heap.length > 1 then
      match heappop heap with
      | some (left, h1) =>
        match heappop h1 with
        | some (right, h2) =>
          buildTreeF fuel (heappush h2 (Node.internal (left.freq + right.freq) left right))
        | none => h1
      | none => heap
    else heap

/-- `build_huffman_tree` (src/app.py:34-46): heapify the leaves, merge until one
node remains, return `heap[0] if heap else None`. -/
def build_huffman_tree (freq : List (Char × Nat)) : Option Node :=
  let heap := heapify (freq.map fun p => Node.leaf p.1 p.2)
  (buildTreeF heap.length heap).head?

/-- The recursive walk of `build_codes` on an actual node: write
`code_map[node.char] = prefix` at a leaf, otherwise recurse left with
`prefix + "0"` and right with `prefix + "1"`.  In trees the builder produces,
the children of an internal node are never `None`, so the recursion stays on
nodes. -/
def build_codes_node : Node → List Char → List (Char × List Char) → List (Char × List Char)
  | .leaf c _, px, m => dictUpsert m c px
  | .internal _ l r, px, m =>
    build_codes_node r (px ++ ['1']) (build_codes_node l (px ++ ['0']) m)

/-- `build_codes` (src/app.py:49-58): the `if not node: return` guard followed
by the walk.  The accumulated dictionary is threaded explicitly (Python mutates
`code_map`). -/
def build_codes (node : Option Node) (px : List Char)
    (m : List (Char × List Char)) : List (Char × List Char) :=
  match node with
  | none => m
  | some t => build_codes_node t px m

/-- The code table `huffman_compress` derives for a text: `codes = {}`;
`build_codes(root, "", codes)` (src/app.py:68-69). -/
def codesOfText (text : List Char) : List (Char × List Char) :=
  build_codes (build_huffman_tree (build_frequency_table text)) [] []

/-- `"".join(codes[ch] for ch in text)` (src/app.py:71); `none` models the
`KeyError` raised when a character is missing from the table. -/
def encodeSyms : List (Char × List Char) → List Char → Option (List Char)
  | _, [] => some []
  | codes, ch :: t =>
    match dictGet codes ch with
    | none => none
    | some s => (encodeSyms codes t).map (fun r => s ++ r)

/-- The encoded bit-string of a text under its own code table. -/
def encodedTextOf (text : List Char) : Option (List Char) :=
  encodeSyms (codesOfText text) text

/-- `padding = 8 - len(encoded_text) % 8` (src/app.py:74). -/
def paddingOfBits (l : Nat) : Nat := 8 - l % 8

/-- `"{0:08b}".format(n)` generalised to `w` digits: the low `w` bits of `n`,
most significant first.  The source only formats values below 256 with `w = 8`,
where this agrees with Python. -/
def natToBits : Nat → Nat → List Char
  | 0, _ => []
  | w + 1, n => natToBits w (n / 2) ++ [if n % 2 = 1 then '1' else '0']

/-- `int(s, 2)` on a string of 0/1 digits. -/
def bitsToNat (s : List Char) : Nat :=
  s.foldl (fun acc c => 2 * acc + (if c = '1' then 1 else 0)) 0

/-- The byte-conversion loop of `huffman_compress` (src/app.py:81-84): take the
bit-string 8 characters at a time, `int(byte, 2)` each chunk.  Fuel equal to the
string length dominates the chunk count. -/
def toBytesF : Nat → List Char → List Nat
  | 0, _ => []
  | fuel + 1, s =>
    if s = [] then []
    else bitsToNat (s.take 8) :: toBytesF fuel (s.drop 8)

/-- `bytearray` accumulation over the 8-character chunks. -/
def toBytes (s : List Char) : List Nat := toBytesF s.length s

/-- Modelled from the spec: the container layer.  The source serialises with
`pickle.dumps((bytes(b), codes))`, a library format not in src/; the spec
mandates replacing it by a self-describing length-prefixed layout (sections 4.6
and 9).  This model writes the table-entry count, then per entry the symbol's
code point, its bit-string length and its bits, then the payload length and the
payload bytes. -/
def serializeArtifact (b : List Nat) (codes : List (Char × List Char)) : List Nat :=
  codes.length ::
    (codes.flatMap fun p => p.1.toNat :: p.2.length :: p.2.map (fun c => if c = '1' then 1 else 0))
    ++ b.length :: b

/-- Modelled from the spec: read `n` bits of a serialised code-table entry. -/
def parseBits : Nat → List Nat → Option (List Char × List Nat)
  | 0, rest => some ([], rest)
  | n + 1, x :: rest =>
    if x = 0 then (parseBits n rest).map fun p => ('0' :: p.1, p.2)
    else if x = 1 then (parseBits n rest).map fun p => ('1' :: p.1, p.2)
    else none
  | _ + 1, [] => none

/-- Modelled from the spec: read `n` serialised code-table entries. -/
def parseEntries : Nat → List Nat → Option (List (Char × List Char) × List Nat)
  | 0, rest => some ([], rest)
  | n + 1, c :: len :: rest =>
    match parseBits len rest with
    | some (bits, rest2) =>
      (parseEntries n rest2).map fun p => ((Char.ofNat c, bits) :: p.1, p.2)
    | none => none
  | _ + 1, _ => none

/-- Modelled from the spec: the inverse of `serializeArtifact`, standing for
`pickle.loads`; any byte sequence that is not a validly framed artifact yields
`none` (the exception the source catches at src/app.py:91-94). -/
def parseArtifact (data : List Nat) : Option (List Nat × List (Char × List Char)) :=
  match data with
  | [] => none
  | n :: rest =>
    match parseEntries n rest with
    | some (codes, m :: rest2) =>
      if rest2.length = m ∧ rest2.all (fun b => b < 256) then some (rest2, codes) else none
    | _ => none

/-- `huffman_compress` (src/app.py:61-87). -/
def huffman_compress (text : List Char) : Except HuffError (List Nat) :=
  if text = [] then .error .emptyInput
  else
    match encodedTextOf text with
    | none => .error .keyError
    | some encoded_text =>
      let padding := paddingOfBits encoded_text.length
      let padded := encoded_text ++ List.replicate padding '0'
      let full := natToBits 8 padding ++ padded
      .ok (serializeArtifact (toBytes full) (codesOfText text))

/-- `rev_codes = {v: k for k, v in codes.items()}` (src/app.py:97). -/
def rev_codes_of (codes : List (Char × List Char)) : List (List Char × Char) :=
  codes.foldl (fun m p => dictUpsert m p.2 p.1) []

/-- The padding-stripped data bits of the payload (src/app.py:99-106):
concatenate the 8-bit expansions, read the first 8 bits as the padding count,
drop them, and drop that many trailing bits when the count is positive
(`bit_string[:-padding]`). -/
def payloadBits (b : List Nat) : List Char :=
  let bs := b.flatMap (natToBits 8)
  let padding := bitsToNat (bs.take 8)
  let rest := bs.drop 8
  if padding > 0 then rest.take (rest.length - padding) else rest

/-- One iteration of the decode loop (src/app.py:110-114): extend the candidate
with the next bit; on a hit in the reverse table emit the symbol and reset. -/
def decodeStep (rev : List (List Char × Char)) (st : List Char × List Char) (bit : Char) :
    List Char × List Char :=
  let code := st.2 ++ [bit]
  match dictGet rev code with
  | some ch => (st.1 ++ [ch], [])
  | none => (st.1, code)

/-- The decode loop folded over the data bits, returning the decoded text and
the leftover candidate. -/
def decodeBits (rev : List (List Char × Char)) (bits : List Char) : List Char × List Char :=
  bits.foldl (decodeStep rev) ([], [])

/-- `huffman_decompress` (src/app.py:90-119).  A parse failure is the caught
exception turned into `ValueError("Corrupted compressed file.")`; an empty
payload makes `int(bit_string[:8], 2)` raise on the empty string (uncaught,
modelled as `invalidLiteral`); a leftover candidate raises
`ValueError("Incomplete prefix code in compressed file.")`. -/
def huffman_decompress (data : List Nat) : Except HuffError (List Char) :=
  match parseArtifact data with
  | none => .error .corruptArtifact
  | some (b, codes) =>
    if b = [] then .error .invalidLiteral
    else
      let st := decodeBits (rev_codes_of codes) (payloadBits b)
      if st.2 = [] then .ok st.1 else .error .incompleteCode

/-- Proof-side view: the characters at the leaves of a tree, left to right. -/
def Node.chars : Node → List Char
  | .leaf c _ => [c]
  | .internal _ l r => l.chars ++ r.chars

/-- Proof-side view: the multiset of leaf characters across a heap of trees. -/
def forestChars (h : List Node) : Multiset Char :=
  ((h.flatMap Node.chars : List Char) : Multiset Char)

/-- Proof-side view: the root-to-leaf path table of a tree, in depth-first
order — what `build_codes` produces when no leaf character repeats. -/
def codePaths : Node → List Char → List (Char × List Char)
  | .leaf c _, px => [(c, px)]
  | .internal _ l r, px => codePaths l (px ++ ['0']) ++ codePaths r (px ++ ['1'])

/-! ### Dictionary lemmas -/

theorem dictGet_isSome_iff {α β : Type} [DecidableEq α] (m : List (α × β)) (k : α) :
    (dictGet m k).isSome ↔ k ∈ m.map Prod.fst := by
  induction m with
  | nil => simp [dictGet]
  | cons p t ih =>
    obtain ⟨a, b⟩ := p
    by_cases h : a = k <;> simp [dictGet, h, ih]
    exact fun hk => (h hk.symm).elim

theorem dictGet_eq_none_iff {α β : Type} [DecidableEq α] (m : List (α × β)) (k : α) :
    dictGet m k = none ↔ k ∉ m.map Prod.fst := by
  rw [← dictGet_isSome_iff]
  cases dictGet m k <;> simp

theorem dictUpsert_keys_of_mem {α β : Type} [DecidableEq α] (m : List (α × β)) (k : α) (v : β)
    (h : k ∈ m.map Prod.fst) : (dictUpsert m k v).map Prod.fst = m.map Prod.fst := by
  induction m with
  | nil => simp at h
  | cons p t ih =>
    obtain ⟨a, b⟩ := p
    by_cases hak : a = k
    · simp [dictUpsert, hak]
    · simp only [List.map_cons, List.mem_cons] at h
      rcases h with h | h

      · exact (hak h.symm).elim
      · simp [dictUpsert, hak, ih h]

theorem dictUpsert_of_not_mem {α β : Type} [DecidableEq α] (m : List (α × β)) (k : α) (v : β)
    (h : k ∉ m.map Prod.fst) : dictUpsert m k v = m ++ [(k, v)] := by
  induction m with
  | nil => rfl
  | cons p t ih =>
    obtain ⟨a, b⟩ := p
    simp only [List.map_cons, List.mem_cons] at h
    push_neg at h
    have hak : ¬ a = k := fun hh => h.1 hh.symm
    simp [dictUpsert, hak, ih h.2]

theorem mem_dictUpsert {α β : Type} [DecidableEq α] (m : List (α × β)) (k : α) (v : β)
    (p : α × β) : p ∈ dictUpsert m k v → p = (k, v) ∨ p ∈ m := by
  induction m with
  | nil => intro h; simpa [dictUpsert] using h
  | cons q t ih =>
    obtain ⟨a, b⟩ := q
    intro h
    by_cases hak : a = k
    · rw [dictUpsert, if_pos hak] at h
      rcases List.mem_cons.mp h with h | h
      · exact Or.inl (by rw [h, hak])
      · exact Or.inr (by simp [h])
    · rw [dictUpsert, if_neg hak] at h
      rcases List.mem_cons.mp h with h | h
      · exact Or.inr (by simp [h])
      · rcases ih h with h' | h'
        · exact Or.inl h'
        · exact Or.inr (by simp [h'])

theorem dictUpsert_sum {α : Type} [DecidableEq α] (m : List (α × Nat)) (k : α) (v w : Nat)
    (h : dictGet m k = some w) :
    ((dictUpsert m k v).map Prod.snd).sum + w = (m.map Prod.snd).sum + v := by
  induction m with
  | nil => simp [dictGet] at h
  | cons p t ih =>
    obtain ⟨a, b⟩ := p
    by_cases hak : a = k
    · simp only [dictGet, if_pos hak] at h
      obtain rfl : b = w := by injection h
      simp [dictUpsert, hak]
      omega
    · simp only [dictGet, if_neg hak] at h
      simp only [dictUpsert, if_neg hak, List.map_cons, List.sum_cons]
      have := ih h
      omega

/-! ### Frequency-table invariant (claim C10) -/

/-- Invariant tying a partially built frequency table to the processed text. -/
def FreqInv (f : List (Char × Nat)) (pro : List Char) : Prop :=
  ((f.map Prod.fst).Nodup) ∧
  (∀ c, c ∈ f.map Prod.fst ↔ c ∈ pro) ∧
  (∀ p ∈ f, 0 < p.2) ∧
  ((f.map Prod.snd).sum = pro.length)

theorem freqInv_step (f : List (Char × Nat)) (pro : List Char) (ch : Char)
    (h : FreqInv f pro) :
    FreqInv (dictUpsert f ch ((dictGet f ch).getD 0 + 1)) (pro ++ [ch]) := by
  obtain ⟨hnd, hmem, hpos, hsum⟩ := h
  by_cases hch : ch ∈ f.map Prod.fst
  · obtain ⟨w, hw⟩ : ∃ w, dictGet f ch = some w := by
      have := (dictGet_isSome_iff f ch).mpr hch
      cases hg : dictGet f ch
      · rw [hg] at this; simp at this
      · exact ⟨_, rfl⟩
    rw [hw]
    refine ⟨?_, ?_, ?_, ?_⟩
    · rw [dictUpsert_keys_of_mem _ _ _ hch]; exact hnd
    · intro c
      rw [dictUpsert_keys_of_mem _ _ _ hch, hmem c]
      constructor
      · intro hc; exact List.mem_append_left _ hc
      · intro hc
        rcases List.mem_append.mp hc with hc | hc
        · exact hc
        · simp only [List.mem_singleton] at hc
          subst hc
          exact (hmem c).mp hch
    · intro p hp
      rcases mem_dictUpsert _ _ _ _ hp with rfl | hp
      · simp
      · exact hpos p hp
    · have := dictUpsert_sum f ch ((some w).getD 0 + 1) w hw
      simp only [List.length_append, List.length_singleton]
      simp only [Option.getD_some] at this ⊢
      omega
  · have hg : dictGet f ch = none := (dictGet_eq_none_iff f ch).mpr hch
    rw [hg, dictUpsert_of_not_mem _ _ _ hch]
    refine ⟨?_, ?_, ?_, ?_⟩
    · simp only [List.map_append, List.map_cons, List.map_nil]
      rw [List.nodup_append]
      refine ⟨hnd, List.nodup_singleton _, ?_⟩
      intro a ha hb
      simp only [List.mem_singleton] at hb
      subst hb
      exact hch ha
    · intro c
      simp only [List.map_append, List.map_cons, List.map_nil, List.mem_append,
        List.mem_singleton, hmem c]
    · intro p hp
      rcases List.mem_append.mp hp with hp | hp
      · exact hpos p hp
      · simp only [List.mem_singleton] at hp
        subst hp
        simp
    · simp only [List.map_append, List.map_cons, List.map_nil, List.sum_append,
        List.sum_cons, List.sum_nil, List.length_append, List.length_singleton]
      simp only [Option.getD_none]
      omega

theorem freqInv_fold (data : List Char) :
    ∀ (f : List (Char × Nat)) (pro : List Char), FreqInv f pro →
      FreqInv (data.foldl (fun freq ch => dictUpsert freq ch ((dictGet freq ch).getD 0 + 1)) f)
        (pro ++ data) := by
  induction data with
  | nil => intro f pro h; simpa using h
  | cons c t ih =>
    intro f pro h
    have h1 := freqInv_step f pro c h
    have h2 := ih _ _ h1
    simpa using h2

theorem freqInv_build (text : List Char) : FreqInv (build_frequency_table text) text := by
  have h0 : FreqInv [] [] := by
    refine ⟨List.nodup_nil, ?_, ?_, rfl⟩ <;> simp
  have := freqInv_fold text [] [] h0
  simpa [build_frequency_table] using this

/-- C10: for every non-empty input, the frequency table has nodup keys whose
set is exactly the set of input characters, all counts positive, and the counts
sum to the input length. -/
theorem claim10_frequency_table (text : List Char) (_h : text ≠ []) :
    ((build_frequency_table text).map Prod.fst).Nodup ∧
    (∀ c, c ∈ (build_frequency_table text).map Prod.fst ↔ c ∈ text) ∧
    (∀ p ∈ build_frequency_table text, 0 < p.2) ∧
    ((build_frequency_table text).map Prod.snd).sum = text.length :=
  freqInv_build text

/-- C10 witness: the frequency-table properties evaluated at "aab". -/
theorem claim10_frequency_table_witness :
    (['a', 'a', 'b'] : List Char) ≠ [] ∧
    (((build_frequency_table ['a', 'a', 'b']).map Prod.fst).Nodup ∧
     (∀ c, c ∈ (build_frequency_table ['a', 'a', 'b']).map Prod.fst ↔ c ∈ ['a', 'a', 'b']) ∧
     (∀ p ∈ build_frequency_table ['a', 'a', 'b'], 0 < p.2) ∧
     ((build_frequency_table ['a', 'a', 'b']).map Prod.snd).sum =
       (['a', 'a', 'b'] : List Char).length) :=
  ⟨by decide, claim10_frequency_table _ (by decide)⟩

/-! ### Concrete evaluations settling the claims the code violates -/

/-- C1 (code bug): round-tripping the single-repeated-symbol input "zzzz"
does not restore the input: the single leaf gets the empty code, the packed
payload carries zero data bits, and decompression returns the empty text. -/
theorem claim1_roundtrip_fails_on_single_symbol :
    (huffman_compress ['z', 'z', 'z', 'z']).bind huffman_decompress =
      .ok ([] : List Char) ∧ ([] : List Char) ≠ ['z', 'z', 'z', 'z'] :=
  ⟨rfl, by decide⟩

/-- C2 (code bug): for the single-distinct-symbol input "zz" the code table
generator assigns the empty bit-string, not a non-empty one-bit code. -/
theorem claim2_single_symbol_code_is_empty :
    codesOfText ['z', 'z'] = [('z', [])] ∧
    dictGet (codesOfText ['z', 'z']) 'z' = some [] := by
  constructor <;> rfl

/-- C3 counterexample: on input "aaabaaab" the encoded text has 8 bits, the
stored padding count is `8 - 8 % 8 = 8`, which is outside [0,7] and differs
from the claimed formula `(8 - totalBits % 8) % 8 = 0`. -/
theorem claim3_padding_counterexample :
    encodedTextOf ['a', 'a', 'a', 'b', 'a', 'a', 'a', 'b'] =
      some ['1', '1', '1', '0', '1', '1', '1', '0'] ∧
    paddingOfBits 8 = 8 ∧ ¬ paddingOfBits 8 ≤ 7 ∧ (8 - 8 % 8) % 8 = 0 := by
  refine ⟨rfl, rfl, by decide, rfl⟩

/-- C3 amended: the padding count the packer stores is `8 - totalBits % 8`,
always in [1,8], and the data-bit length plus the padding is a multiple of 8. -/
theorem claim3_padding_bound_amended (text e : List Char) (_h : text ≠ [])
    (_he : encodedTextOf text = some e) :
    1 ≤ paddingOfBits e.length ∧ paddingOfBits e.length ≤ 8 ∧
    (e.length + paddingOfBits e.length) % 8 = 0 := by
  unfold paddingOfBits
  omega

/-- C3 amended witness: the padding bound evaluated at input "a". -/
theorem claim3_padding_bound_amended_witness :
    ((['a'] : List Char) ≠ [] ∧ encodedTextOf ['a'] = some []) ∧
    (1 ≤ paddingOfBits (List.length ([] : List Char)) ∧
     paddingOfBits (List.length ([] : List Char)) ≤ 8 ∧
     (List.length ([] : List Char) + paddingOfBits (List.length ([] : List Char))) % 8 = 0) :=
  ⟨⟨by decide, rfl⟩, claim3_padding_bound_amended ['a'] [] (by decide) rfl⟩

/-- C6: whenever the artifact cannot be parsed, decompression fails with the
corrupt-artifact error — it neither returns a value nor surfaces another
failure. -/
theorem claim6_parse_failure_corrupt (data : List Nat)
    (h : parseArtifact data = none) :
    huffman_decompress data = .error .corruptArtifact := by
  unfold huffman_decompress
  rw [h]

/-- C6 witness: the empty byte sequence does not parse and decompression
reports a corrupt artifact on it. -/
theorem claim6_parse_failure_corrupt_witness :
    parseArtifact [] = none ∧
    huffman_decompress [] = .error .corruptArtifact :=
  ⟨rfl, claim6_parse_failure_corrupt [] rfl⟩

/-- C7: once an artifact parses and its payload is non-empty, the result of
decompression is decided by the leftover candidate of the decode loop over the
padding-stripped data bits: a non-empty leftover is the incomplete-code error,
an empty leftover returns the decoded text. -/
theorem claim7_leftover_incomplete (data b : List Nat) (codes : List (Char × List Char))
    (hp : parseArtifact data = some (b, codes)) (hb : b ≠ []) :
    huffman_decompress data =
      (if (decodeBits (rev_codes_of codes) (payloadBits b)).2 = []
       then .ok (decodeBits (rev_codes_of codes) (payloadBits b)).1
       else .error .incompleteCode) := by
  unfold huffman_decompress
  rw [hp]
  simp [hb]

/-- C7 witness: the decode-loop dichotomy evaluated on a concrete artifact
holding the table `{z: "0"}` and payload bytes `[8, 0]`. -/
theorem claim7_leftover_incomplete_witness :
    (parseArtifact [1, 122, 1, 0, 2, 8, 0] = some ([8, 0], [('z', ['0'])]) ∧
      ([8, 0] : List Nat) ≠ []) ∧
    huffman_decompress [1, 122, 1, 0, 2, 8, 0] =
      (if (decodeBits (rev_codes_of [('z', ['0'])]) (payloadBits [8, 0])).2 = []
       then .ok (decodeBits (rev_codes_of [('z', ['0'])]) (payloadBits [8, 0])).1
       else .error .incompleteCode) :=
  ⟨⟨by decide, by decide⟩,
    claim7_leftover_incomplete [1, 122, 1, 0, 2, 8, 0] [8, 0] [('z', ['0'])]
      (by decide) (by decide)⟩

/-- C8 (code bug): the table generator does not start from a fresh table when
the accumulator argument is left to its default — the default dictionary
persists across invocations, so a second call's result depends on the first
call (here the residue of the tree with leaf 'a' shows up in the table built
for the tree with leaf 'b'). -/
theorem claim8_default_table_reused :
    build_codes (some (Node.leaf 'b' 1)) [] (build_codes (some (Node.leaf 'a' 1)) [] []) ≠
      build_codes (some (Node.leaf 'b' 1)) [] [] := by
  decide

/-! ### Occurrence-count toolkit for the heap operations -/

theorem count_cons_add {α : Type} [DecidableEq α] (a x : α) (l : List α) :
    (a :: l).count x = l.count x + (if a = x then 1 else 0) := by
  simp [List.count_cons]

theorem count_set_add {α : Type} [DecidableEq α] :
    ∀ (l : List α) (p : Nat) (b v x : α), l[p]? = some v →
      (l.set p b).count x + (if v = x then 1 else 0) =
        l.count x + (if b = x then 1 else 0) := by
  intro l
  induction l with
  | nil => intro p b v x h; simp at h
  | cons a t ih =>
    intro p b v x h
    cases p with
    | zero =>
      simp only [List.getElem?_cons_zero, Option.some_inj] at h
      subst h
      rw [List.set_cons_zero, count_cons_add, count_cons_add]
      omega
    | succ n =>
      simp only [List.getElem?_cons_succ] at h
      rw [List.set_cons_succ, count_cons_add, count_cons_add]
      have := ih n b v x h
      omega

theorem set_of_getElem {α : Type} [DecidableEq α] :
    ∀ (l : List α) (p : Nat) (v : α), l[p]? = some v → l.set p v = l := by
  intro l
  induction l with
  | nil => intro p v h; simp at h
  | cons a t ih =>
    intro p v h
    cases p with
    | zero =>
      simp only [List.getElem?_cons_zero, Option.some_inj] at h
      rw [List.set_cons_zero, h]
    | succ n =>
      simp only [List.getElem?_cons_succ] at h
      rw [List.set_cons_succ, ih n v h]

/-- Overwriting position `p` with the value at `q` and then position `q` with a
new value permutes to just overwriting `p` with the new value. -/
theorem set_set_perm {α : Type} [DecidableEq α] (l : List α) (p q : Nat) (a w : α)
    (hpq : p ≠ q) (hq : l[q]? = some w) (hp : p < l.length) :
    ((l.set p w).set q a).Perm (l.set p a) := by
  apply List.perm_iff_count.mpr
  intro x
  have hv : l[p]? = some l[p] := List.getElem?_eq_getElem hp
  have e1 := count_set_add l p w (l[p]) x hv
  have e2 : (l.set p w)[q]? = some w := by
    rw [List.getElem?_set_ne hpq]
    exact hq
  have e3 := count_set_add (l.set p w) q a w x e2
  have e4 := count_set_add l p a (l[p]) x hv
  omega

/-! ### The heap operations permute the heap -/

theorem siftdownF_perm :
    ∀ (fuel : Nat) (heap : List Node) (s p : Nat) (item : Node), p < heap.length →
      (siftdownF fuel heap s p item).Perm (heap.set p item) := by
  intro fuel
  induction fuel with
  | zero => intro heap s p item _; exact List.Perm.refl _
  | succ fuel ih =>
    intro heap s p item hp
    simp only [siftdownF]
    by_cases hsp : s < p
    · rw [if_pos hsp]
      have hdiv : (p - 1) / 2 < p := by
        have := Nat.div_le_self (p - 1) 2
        omega
      cases hpp : heap[(p - 1) / 2]? with
      | none => exact List.Perm.refl _
      | some parent =>
        show (if item.freq < parent.freq then
            siftdownF fuel (heap.set p parent) s ((p - 1) / 2) item
          else heap.set p item).Perm (heap.set p item)
        by_cases hlt : item.freq < parent.freq
        · rw [if_pos hlt]
          have h1 : (p - 1) / 2 < (heap.set p parent).length := by
            rw [List.length_set]; omega
          exact (ih (heap.set p parent) s ((p - 1) / 2) item h1).trans
            (set_set_perm heap p ((p - 1) / 2) item parent (by omega) hpp hp)
        · rw [if_neg hlt]
    · rw [if_neg hsp]

theorem siftdown_perm (heap : List Node) (s p : Nat) :
    (siftdown heap s p).Perm heap := by
  unfold siftdown
  cases h : heap[p]? with
  | none => exact List.Perm.refl _
  | some item =>
    have hp : p < heap.length := (List.getElem?_eq_some_iff.mp h).1
    have h1 := siftdownF_perm (p + 1) heap s p item hp
    rw [set_of_getElem heap p item h] at h1
    exact h1

theorem siftupF_spec :
    ∀ (fuel : Nat) (heap : List Node) (pos : Nat), pos < heap.length →
      ∀ (h2 : List Node) (p2 : Nat), siftupF fuel heap pos = (h2, p2) →
        h2.length = heap.length ∧ p2 < heap.length ∧
        (∀ item : Node, (h2.set p2 item).Perm (heap.set pos item)) := by
  intro fuel
  induction fuel with
  | zero =>
    intro heap pos hp h2 p2 heq
    obtain ⟨rfl, rfl⟩ : heap = h2 ∧ pos = p2 := by
      simpa [siftupF] using heq
    exact ⟨rfl, hp, fun item => List.Perm.refl _⟩
  | succ fuel ih =>
    intro heap pos hp h2 p2 heq
    simp only [siftupF] at heq
    split at heq
    · -- 2 * pos + 1 < heap.length
      rename_i hchild
      generalize hcpdef :
        (match heap[2 * pos + 1]?, heap[2 * pos + 1 + 1]? with
          | some cnode, some rnode =>
            if ¬ cnode.freq < rnode.freq then 2 * pos + 1 + 1 else 2 * pos + 1
          | _, _ => 2 * pos + 1) = cp at heq
      have hcpge : 2 * pos + 1 ≤ cp := by
        rw [← hcpdef]
        cases heap[2 * pos + 1]? with
        | none => exact le_rfl
        | some cnode2 =>
          cases heap[2 * pos + 1 + 1]? with
          | none => exact le_rfl
          | some rnode2 =>
            show 2 * pos + 1 ≤
              if ¬ cnode2.freq < rnode2.freq then 2 * pos + 1 + 1 else 2 * pos + 1
            split <;> omega
      split at heq
      · -- heap[cp]? = some cnode
        rename_i cnode hcp
        have hcplt : cp < heap.length := (List.getElem?_eq_some_iff.mp hcp).1
        have hlt1 : cp < (heap.set pos cnode).length := by
          rw [List.length_set]; exact hcplt
        obtain ⟨ihlen, ihpos, ihperm⟩ := ih (heap.set pos cnode) cp hlt1 h2 p2 heq
        rw [List.length_set] at ihlen ihpos
        refine ⟨ihlen, ihpos, fun item => ?_⟩
        exact (ihperm item).trans
          (set_set_perm heap pos cp item cnode (by omega) hcp hp)
      · -- heap[cp]? = none
        obtain ⟨rfl, rfl⟩ : heap = h2 ∧ pos = p2 := by
          simpa using heq
        exact ⟨rfl, hp, fun item => List.Perm.refl _⟩
    · -- no child in range
      obtain ⟨rfl, rfl⟩ : heap = h2 ∧ pos = p2 := by
        simpa using heq
      exact ⟨rfl, hp, fun item => List.Perm.refl _⟩

theorem siftup_perm (heap : List Node) (pos : Nat) :
    (siftup heap pos).Perm heap := by
  unfold siftup
  cases h : heap[pos]? with
  | none => exact List.Perm.refl _
  | some item =>
    have hp : pos < heap.length := (List.getElem?_eq_some_iff.mp h).1
    obtain ⟨_, _, hperm⟩ :=
      siftupF_spec heap.length heap pos hp
        (siftupF heap.length heap pos).1 (siftupF heap.length heap pos).2 rfl
    have h1 := hperm item
    rw [set_of_getElem heap pos item h] at h1
    exact (siftdown_perm _ pos _).trans h1

theorem heappush_perm (heap : List Node) (item : Node) :
    (heappush heap item).Perm (item :: heap) := by
  unfold heappush
  exact (siftdown_perm _ 0 heap.length).trans (List.perm_append_singleton item heap)

theorem heappop_none_iff (heap : List Node) : heappop heap = none ↔ heap = [] := by
  constructor
  · intro h
    unfold heappop at h
    split at h
    · next hl => exact List.getLast?_eq_none_iff.mp hl
    · next lastelt hl =>
      split at h <;> simp at h
  · intro h
    subst h
    rfl

theorem heappop_perm (heap : List Node) (x : Node) (h' : List Node)
    (h : heappop heap = some (x, h')) : (x :: h').Perm heap := by
  unfold heappop at h
  split at h
  · simp at h
  · next lastelt hl =>
    have hne : heap ≠ [] := by
      intro hh
      rw [hh] at hl
      simp at hl
    have hlast : heap.getLast hne = lastelt := by
      have := List.getLast?_eq_getLast heap hne
      rw [hl] at this
      injection this with this
      exact this.symm
    have hsplit : heap.dropLast ++ [lastelt] = heap := by
      rw [← hlast]
      exact List.dropLast_append_getLast hne
    split at h
    · next hh =>
      obtain ⟨rfl, rfl⟩ : lastelt = x ∧ [] = h' := by
        simpa [Prod.ext_iff] using h
      have hdrop : heap.dropLast = [] := List.head?_eq_none_iff.mp hh
      rw [hdrop] at hsplit
      rw [← hsplit]
      exact List.Perm.refl _
    · next returnitem hh =>
      obtain ⟨rfl, rfl⟩ :
          returnitem = x ∧ siftup (heap.dropLast.set 0 lastelt) 0 = h' := by
        simpa [Prod.ext_iff] using h
      have hperm := siftup_perm (heap.dropLast.set 0 lastelt) 0
      apply List.perm_iff_count.mpr
      intro a
      have h0 : heap.dropLast[0]? = some returnitem := by
        rw [← List.head?_eq_getElem?]
        exact hh
      have e1 := count_set_add heap.dropLast 0 lastelt returnitem a h0
      have e2 := hperm.count_eq a
      have e3 : heap.count a = heap.dropLast.count a + (if lastelt = a then 1 else 0) := by
        conv_lhs => rw [← hsplit]
        rw [List.count_append]
        have h4 : List.count a [lastelt] = if lastelt = a then 1 else 0 := by
          simp [List.count_singleton]
        omega
      rw [count_cons_add]
      omega

theorem heappop_length (heap : List Node) (x : Node) (h' : List Node)
    (h : heappop heap = some (x, h')) : h'.length + 1 = heap.length := by
  have h1 := (heappop_perm heap x h' h).length_eq
  simp only [List.length_cons] at h1
  omega

theorem heappush_length (heap : List Node) (item : Node) :
    (heappush heap item).length = heap.length + 1 := by
  have := (heappush_perm heap item).length_eq
  simpa using this

theorem heapify_perm (l : List Node) : (heapify l).Perm l := by
  unfold heapify
  generalize (List.range (l.length / 2)).reverse = idxs
  induction idxs generalizing l with
  | nil => exact List.Perm.refl _
  | cons i t ih =>
    simp only [List.foldl_cons]
    exact (ih (siftup l i)).trans (siftup_perm l i)

/-! ### The merge loop preserves the leaf characters -/

theorem forestChars_perm {h1 h2 : List Node} (h : h1.Perm h2) :
    forestChars h1 = forestChars h2 := by
  unfold forestChars
  exact Multiset.coe_eq_coe.mpr (List.Perm.flatMap_right Node.chars h)

theorem forestChars_cons (n : Node) (h : List Node) :
    forestChars (n :: h) = (n.chars : Multiset Char) + forestChars h := by
  unfold forestChars
  rw [List.flatMap_cons]
  exact (Multiset.coe_add _ _).symm

theorem buildTreeF_chars : ∀ (fuel : Nat) (heap : List Node),
    forestChars (buildTreeF fuel heap) = forestChars heap := by
  intro fuel
  induction fuel with
  | zero => intro heap; rfl
  | succ fuel ih =>
    intro heap
    simp only [buildTreeF]
    split
    · -- heap.length > 1
      split
      · -- heappop heap = some (left, h1)
        rename_i left h1 hp1
        split
        · -- heappop h1 = some (right, h2)
          rename_i right h2 hp2
          rw [ih]
          have e1 := forestChars_perm
            (heappush_perm h2 (Node.internal (left.freq + right.freq) left right))
          have e2 := forestChars_perm (heappop_perm heap left h1 hp1)
          have e3 := forestChars_perm (heappop_perm h1 right h2 hp2)
          rw [forestChars_cons] at e2 e3
          rw [e1, forestChars_cons]
          have e4 : ((Node.internal (left.freq + right.freq) left right).chars :
              Multiset Char) = (left.chars : Multiset Char) + (right.chars : Multiset Char) := by
            show ((left.chars ++ right.chars : List Char) : Multiset Char) = _
            exact (Multiset.coe_add _ _).symm
          rw [e4, ← e2, ← e3, add_assoc]
        · -- heappop h1 = none: h1 is empty, impossible after a pop from a
          -- heap of length > 1
          rename_i hp2
          exfalso
          rename_i hlen
          have h1nil : h1 = [] := (heappop_none_iff h1).mp hp2
          have hlen1 := heappop_length heap left h1 hp1
          rw [h1nil] at hlen1
          simp at hlen1
          omega
      · -- heappop heap = none
        rfl
    · rfl

theorem buildTreeF_length_le : ∀ (fuel : Nat) (heap : List Node),
    heap.length ≤ fuel + 1 → (buildTreeF fuel heap).length ≤ 1 := by
  intro fuel
  induction fuel with
  | zero => intro heap h; simpa [buildTreeF] using h
  | succ fuel ih =>
    intro heap h
    simp only [buildTreeF]
    split
    · -- heap.length > 1
      split
      · -- heappop heap = some (left, h1)
        rename_i left h1 hp1
        split
        · -- heappop h1 = some (right, h2)
          rename_i right h2 hp2
          apply ih
          have l1 := heappop_length heap left h1 hp1
          have l2 := heappop_length h1 right h2 hp2
          rw [heappush_length]
          omega
        · -- heappop h1 = none
          rename_i hp2
          have h1nil : h1 = [] := (heappop_none_iff h1).mp hp2
          rw [h1nil]
          simp
      · -- heappop heap = none: the heap would be empty
        rename_i hp1
        rename_i hlen hdisc
        exfalso
        have hnil := (heappop_none_iff heap).mp hp1
        rw [hnil] at hlen
        simp at hlen
    · -- loop exit
      rename_i hlen
      omega

theorem forestChars_leaves (freq : List (Char × Nat)) :
    forestChars (freq.map fun p => Node.leaf p.1 p.2) =
      ((freq.map Prod.fst : List Char) : Multiset Char) := by
  induction freq with
  | nil => rfl
  | cons p t ih =>
    simp only [List.map_cons]
    rw [forestChars_cons, ih]
    show ((Node.leaf p.1 p.2).chars : Multiset Char) + _ = _
    have : (Node.leaf p.1 p.2).chars = [p.1] := rfl
    rw [this, Multiset.coe_add]
    rfl

theorem build_huffman_tree_spec (freq : List (Char × Nat)) (hne : freq ≠ []) :
    ∃ t, build_huffman_tree freq = some t ∧
      (t.chars : Multiset Char) = ((freq.map Prod.fst : List Char) : Multiset Char) := by
  have hperm := heapify_perm (freq.map fun p => Node.leaf p.1 p.2)
  have hfc : forestChars (heapify (freq.map fun p => Node.leaf p.1 p.2)) =
      ((freq.map Prod.fst : List Char) : Multiset Char) := by
    rw [forestChars_perm hperm, forestChars_leaves]
  set hm := heapify (freq.map fun p => Node.leaf p.1 p.2) with hhm
  have hle : (buildTreeF hm.length hm).length ≤ 1 :=
    buildTreeF_length_le hm.length hm (by omega)
  have hchars : forestChars (buildTreeF hm.length hm) =
      ((freq.map Prod.fst : List Char) : Multiset Char) := by
    rw [buildTreeF_chars, hfc]
  have hfne : buildTreeF hm.length hm ≠ [] := by
    intro hnil
    rw [hnil] at hchars
    have h0 : ((freq.map Prod.fst : List Char) : Multiset Char) = 0 := by
      rw [← hchars]; rfl
    rw [Multiset.coe_eq_zero, List.map_eq_nil_iff] at h0
    exact hne h0
  obtain ⟨t, rest, hcons⟩ : ∃ t rest, buildTreeF hm.length hm = t :: rest := by
    cases hfin : buildTreeF hm.length hm with
    | nil => exact absurd hfin hfne
    | cons t rest => exact ⟨t, rest, rfl⟩
  have hrest : rest = [] := by
    rw [hcons] at hle
    simp only [List.length_cons] at hle
    exact List.length_eq_zero.mp (by omega)
  subst hrest
  refine ⟨t, ?_, ?_⟩
  · show build_huffman_tree freq = some t
    simp only [build_huffman_tree]
    rw [← hhm, hcons]
    rfl
  · rw [hcons] at hchars
    rw [forestChars_cons] at hchars
    have h0 : forestChars [] = 0 := rfl
    rw [h0, add_zero] at hchars
    exact hchars

/-! ### The code table is the path table of the tree -/

theorem codePaths_map_fst (t : Node) : ∀ px, (codePaths t px).map Prod.fst = t.chars := by
  induction t with
  | leaf c f => intro px; rfl
  | internal f l r ihl ihr =>
    intro px
    simp only [codePaths, Node.chars, List.map_append, ihl, ihr]

theorem build_codes_node_eq (t : Node) : ∀ (px : List Char) (m : List (Char × List Char)),
    t.chars.Nodup → (∀ c ∈ t.chars, c ∉ m.map Prod.fst) →
    build_codes_node t px m = m ++ codePaths t px := by
  induction t with
  | leaf c f =>
    intro px m _ hdis
    show dictUpsert m c px = m ++ [(c, px)]
    exact dictUpsert_of_not_mem m c px (hdis c (by simp [Node.chars]))
  | internal f l r ihl ihr =>
    intro px m hnd hdis
    have hnd' : (l.chars ++ r.chars).Nodup := hnd
    rw [List.nodup_append] at hnd'
    obtain ⟨hndl, hndr, hdisj⟩ := hnd'
    show build_codes_node r (px ++ ['1']) (build_codes_node l (px ++ ['0']) m) =
      m ++ codePaths (.internal f l r) px
    rw [ihl (px ++ ['0']) m hndl
      (fun c hc => hdis c (by simp [Node.chars, hc]))]
    rw [ihr (px ++ ['1']) (m ++ codePaths l (px ++ ['0'])) hndr ?hdis2]
    · show m ++ codePaths l (px ++ ['0']) ++ codePaths r (px ++ ['1']) =
        m ++ (codePaths l (px ++ ['0']) ++ codePaths r (px ++ ['1']))
      rw [List.append_assoc]
    case hdis2 =>
      intro c hc
      rw [List.map_append, codePaths_map_fst]
      intro hmem
      rcases List.mem_append.mp hmem with hm | hm
      · exact hdis c (by simp [Node.chars, hc]) hm
      · exact hdisj hm hc

theorem codePaths_extends (t : Node) :
    ∀ (px : List Char) (p : Char × List Char), p ∈ codePaths t px →
      ∃ q, p.2 = px ++ q := by
  induction t with
  | leaf c f =>
    intro px p hp
    simp only [codePaths, List.mem_singleton] at hp
    subst hp
    exact ⟨[], by simp⟩
  | internal f l r ihl ihr =>
    intro px p hp
    rcases List.mem_append.mp hp with hm | hm
    · obtain ⟨q, hq⟩ := ihl (px ++ ['0']) p hm
      exact ⟨'0' :: q, by rw [hq, List.append_assoc]; rfl⟩
    · obtain ⟨q, hq⟩ := ihr (px ++ ['1']) p hm
      exact ⟨'1' :: q, by rw [hq, List.append_assoc]; rfl⟩

theorem codePaths_prefix_free (t : Node) :
    ∀ (px : List Char) (c1 c2 : Char) (s1 s2 : List Char), t.chars.Nodup →
      (c1, s1) ∈ codePaths t px → (c2, s2) ∈ codePaths t px → c1 ≠ c2 →
      ¬ ∃ u, s1 ++ u = s2 := by
  induction t with
  | leaf c f =>
    intro px c1 c2 s1 s2 _ h1 h2 hne
    simp only [codePaths, List.mem_singleton, Prod.mk.injEq] at h1 h2
    exact absurd (h1.1.trans h2.1.symm) hne
  | internal f l r ihl ihr =>
    intro px c1 c2 s1 s2 hnd h1 h2 hne
    have hnd' : (l.chars ++ r.chars).Nodup := hnd
    rw [List.nodup_append] at hnd'
    obtain ⟨hndl, hndr, hdisj⟩ := hnd'
    rcases List.mem_append.mp h1 with hm1 | hm1 <;>
      rcases List.mem_append.mp h2 with hm2 | hm2
    · exact ihl (px ++ ['0']) c1 c2 s1 s2 hndl hm1 hm2 hne
    · obtain ⟨q1, hq1⟩ := codePaths_extends l (px ++ ['0']) (c1, s1) hm1
      obtain ⟨q2, hq2⟩ := codePaths_extends r (px ++ ['1']) (c2, s2) hm2
      have hq1' : s1 = px ++ ['0'] ++ q1 := hq1
      have hq2' : s2 = px ++ ['1'] ++ q2 := hq2
      rintro ⟨u, hu⟩
      rw [hq1', hq2'] at hu
      rw [List.append_assoc, List.append_assoc, List.append_assoc] at hu
      have := List.append_cancel_left hu
      rw [List.singleton_append, List.singleton_append] at this
      exact absurd (List.head_eq_of_cons_eq this) (by decide)
    · obtain ⟨q1, hq1⟩ := codePaths_extends r (px ++ ['1']) (c1, s1) hm1
      obtain ⟨q2, hq2⟩ := codePaths_extends l (px ++ ['0']) (c2, s2) hm2
      have hq1' : s1 = px ++ ['1'] ++ q1 := hq1
      have hq2' : s2 = px ++ ['0'] ++ q2 := hq2
      rintro ⟨u, hu⟩
      rw [hq1', hq2'] at hu
      rw [List.append_assoc, List.append_assoc, List.append_assoc] at hu
      have := List.append_cancel_left hu
      rw [List.singleton_append, List.singleton_append] at this
      exact absurd (List.head_eq_of_cons_eq this) (by decide)
    · exact ihr (px ++ ['1']) c1 c2 s1 s2 hndr hm1 hm2 hne

/-- The full characterisation of the code table built for a non-empty text:
the tree exists, its leaf characters are exactly the distinct input characters
with no duplicates, and the table is the tree's path table. -/
theorem codesOfText_spec (text : List Char) (h : text ≠ []) :
    ∃ t, build_huffman_tree (build_frequency_table text) = some t ∧
      codesOfText text = codePaths t [] ∧ t.chars.Nodup ∧
      (∀ c, c ∈ t.chars ↔ c ∈ text) := by
  obtain ⟨hnd, hmem, _, _⟩ := freqInv_build text
  have hfreqne : build_frequency_table text ≠ [] := by
    intro hnil
    obtain ⟨c, hc⟩ := List.exists_mem_of_ne_nil text h
    have := (hmem c).mpr hc
    rw [hnil] at this
    simp at this
  obtain ⟨t, htree, hchars⟩ := build_huffman_tree_spec (build_frequency_table text) hfreqne
  have hperm : t.chars.Perm ((build_frequency_table text).map Prod.fst) :=
    Multiset.coe_eq_coe.mp hchars
  have htnd : t.chars.Nodup := hperm.nodup_iff.mpr hnd
  refine ⟨t, htree, ?_, htnd, ?_⟩
  · show codesOfText text = codePaths t []
    unfold codesOfText
    rw [htree]
    show build_codes_node t [] [] = codePaths t []
    rw [build_codes_node_eq t [] [] htnd (by simp)]
    rfl
  · intro c
    rw [hperm.mem_iff]
    exact hmem c

/-- C4: the code table generated for any non-empty input is prefix-free — the
code of one symbol is never a prefix of the code of a different symbol. -/
theorem claim4_codes_prefix_free (text : List Char) (c1 c2 : Char) (s1 s2 : List Char)
    (h : text ≠ []) (h1 : (c1, s1) ∈ codesOfText text)
    (h2 : (c2, s2) ∈ codesOfText text) (hne : c1 ≠ c2) :
    ¬ ∃ u, s1 ++ u = s2 := by
  obtain ⟨t, _, hcodes, htnd, _⟩ := codesOfText_spec text h
  rw [hcodes] at h1 h2
  exact codePaths_prefix_free t [] c1 c2 s1 s2 htnd h1 h2 hne

/-- C4 witness: prefix-freedom applied to the two codes generated for "ab". -/
theorem claim4_codes_prefix_free_witness :
    ((['a', 'b'] : List Char) ≠ [] ∧ ('b', ['0']) ∈ codesOfText ['a', 'b'] ∧
      ('a', ['1']) ∈ codesOfText ['a', 'b'] ∧ 'b' ≠ 'a') ∧
    ¬ ∃ u, ['0'] ++ u = ['1'] :=
  ⟨⟨by decide, by decide, by decide, by decide⟩,
    claim4_codes_prefix_free ['a', 'b'] 'b' 'a' ['0'] ['1']
      (by decide) (by decide) (by decide) (by decide)⟩

/-! ### Compression succeeds on every non-empty input -/

theorem encodeSyms_total (codes : List (Char × List Char)) :
    ∀ (text : List Char), (∀ ch ∈ text, (dictGet codes ch).isSome) →
      ∃ e, encodeSyms codes text = some e := by
  intro text
  induction text with
  | nil => intro _; exact ⟨[], rfl⟩
  | cons ch t ih =>
    intro hall
    have hch := hall ch (List.mem_cons_self _ _)
    obtain ⟨s, hs⟩ : ∃ s, dictGet codes ch = some s := by
      cases hg : dictGet codes ch
      · rw [hg] at hch; simp at hch
      · exact ⟨_, rfl⟩
    obtain ⟨e, he⟩ := ih (fun c hc => hall c (List.mem_cons_of_mem _ hc))
    refine ⟨s ++ e, ?_⟩
    show encodeSyms codes (ch :: t) = some (s ++ e)
    unfold encodeSyms
    rw [hs, he]
    rfl

theorem codes_lookup_total (text : List Char) (h : text ≠ []) :
    ∀ ch ∈ text, (dictGet (codesOfText text) ch).isSome := by
  obtain ⟨t, _, hcodes, _, hmem⟩ := codesOfText_spec text h
  intro ch hch
  rw [hcodes, dictGet_isSome_iff, codePaths_map_fst]
  exact (hmem ch).mpr hch

theorem compress_total (text : List Char) (h : text ≠ []) :
    ∃ out, huffman_compress text = .ok out := by
  obtain ⟨e, he⟩ := encodeSyms_total (codesOfText text) text (codes_lookup_total text h)
  refine ⟨serializeArtifact
    (toBytes (natToBits 8 (paddingOfBits e.length) ++
      (e ++ List.replicate (paddingOfBits e.length) '0'))) (codesOfText text), ?_⟩
  unfold huffman_compress
  rw [if_neg h]
  have he2 : encodedTextOf text = some e := he
  rw [he2]

/-- C9: for every non-empty input, the per-symbol code lookup of the bit packer
succeeds on every input symbol (the `KeyError` branch is unreachable) and
compression completes with a result. -/
theorem claim9_lookup_total (text : List Char) (h : text ≠ []) :
    (∀ ch ∈ text, (dictGet (codesOfText text) ch).isSome) ∧
    (∃ out, huffman_compress text = .ok out) :=
  ⟨codes_lookup_total text h, compress_total text h⟩

/-- C9 witness: the lookup totality and compression success evaluated at "ab". -/
theorem claim9_lookup_total_witness :
    (['a', 'b'] : List Char) ≠ [] ∧
    ((∀ ch ∈ (['a', 'b'] : List Char), (dictGet (codesOfText ['a', 'b']) ch).isSome) ∧
     (∃ out, huffman_compress ['a', 'b'] = .ok out)) :=
  ⟨by decide, claim9_lookup_total ['a', 'b'] (by decide)⟩

/-- C5: compressing the empty input fails with the empty-input error, and
compression returns a result exactly on the non-empty inputs. -/
theorem claim5_compress_empty_fails_iff :
    huffman_compress [] = .error .emptyInput ∧
    ∀ text : List Char, (∃ out, huffman_compress text = .ok out) ↔ text ≠ [] := by
  constructor
  · rfl
  · intro text
    constructor
    · rintro ⟨out, hout⟩ rfl
      rw [huffman_compress] at hout
      simp at hout
    · exact compress_total text

end HuffApp
